import Mathlib

/-!
Verification development for the short-URL management engine
(`UrlService` in `src/services/urlService.ts`).

The engine's state is two `Map`s (id → entry, shortCode → id) plus the
side effect of `saveToStorage`.  We embed the maps as association lists
with JavaScript `Map` semantics (`set` replaces in place or appends,
`get` finds, `delete` removes) and count `saveToStorage` calls in a
`saves` field so that "triggers a persistence write" is observable.
`Date.now()` / `new Date()` are passed in as an explicit `now` (epoch
milliseconds, `Int`); ISO timestamp strings compare exactly like the
underlying milliseconds, so entries carry the milliseconds directly.
`Math.random()` draws are supplied as an oracle list holding, per
iteration of the generator loop, the 8 drawn alphabet indices
(`Fin 8 → Fin 62`), and the browser's URL parser
(`new URL(...).protocol`) as an oracle function.
-/

structure UrlEntry where
  id : String
  longUrl : String
  shortUrl : String
  shortCode : String
  createdAt : Int
  expiresAt : Int
  clicks : Nat
  isValid : Bool
  customShortCode : Option String
deriving Repr, DecidableEq

structure CreateUrlRequest where
  longUrl : String
  customShortCode : Option String := none
  validityMinutes : Option Int := none
deriving Repr, DecidableEq

structure CreateUrlResponse where
  success : Bool
  urlEntry : Option UrlEntry := none
  error : Option String := none
deriving Repr, DecidableEq

structure UrlValidationResult where
  isValid : Bool
  error : Option String := none
deriving Repr, DecidableEq

structure UrlService where
  urlEntries : List (String × UrlEntry)
  shortCodeToId : List (String × String)
  saves : Nat
deriving Repr, DecidableEq

/-- JavaScript `Map.get`. -/
def mapGet {α : Type} (m : List (String × α)) (k : String) : Option α :=
  (m.find? (fun p => p.1 == k)).map Prod.snd

/-- Pointwise replacement used by `mapSet` when the key is present. -/
def replaceKey {α : Type} (k : String) (v : α) (p : String × α) :
    String × α :=
  if p.1 == k then (k, v) else p

/-- JavaScript `Map.set`: replaces the value in place if the key is
present, otherwise appends (insertion order is preserved). -/
def mapSet {α : Type} (m : List (String × α)) (k : String) (v : α) :
    List (String × α) :=
  if m.any (fun p => p.1 == k) then m.map (replaceKey k v)
  else m ++ [(k, v)]

/-- JavaScript `Map.delete` (ignoring the returned boolean). -/
def mapDelete {α : Type} (m : List (String × α)) (k : String) :
    List (String × α) :=
  m.filter (fun p => !(p.1 == k))

/-- `saveToStorage` serializes the maps to `localStorage`; the observable
we track is that a write happened. -/
def UrlService.saveToStorage (s : UrlService) : UrlService :=
  { s with saves := s.saves + 1 }

/-- The records `saveToStorage` writes: the entry array
(`Array.from(this.urlEntries.values())`) and the code index
(`Object.fromEntries(this.shortCodeToId)`). -/
def UrlService.savedRecords (s : UrlService) :
    List UrlEntry × List (String × String) :=
  (s.urlEntries.map Prod.snd, s.shortCodeToId)

/-- One step of `loadFromStorage`'s first loop: insert a stored entry
under its own id and code. -/
def loadUrlStep (st : UrlService) (u : UrlEntry) : UrlService :=
  { st with urlEntries := mapSet st.urlEntries u.id u,
            shortCodeToId := mapSet st.shortCodeToId u.shortCode u.id }

/-- One step of `loadFromStorage`'s second loop: merge a stored
code → id mapping into the index. -/
def loadMappingStep (st : UrlService) (p : String × String) :
    UrlService :=
  { st with shortCodeToId := mapSet st.shortCodeToId p.1 p.2 }

/-- `loadFromStorage` rebuilt from the stored records: each stored entry
is inserted under its own id and code, then the stored mappings are
merged into the code index. -/
def loadFromStorage (storedUrls : List UrlEntry)
    (storedMappings : List (String × String)) : UrlService :=
  storedMappings.foldl loadMappingStep
    (storedUrls.foldl loadUrlStep (⟨[], [], 0⟩ : UrlService))

/-- The 62-character alphabet of `generateShortCode`. -/
def chars : String :=
  "ABCDEFGHIJKLMNOPQRSTUVWXYZabcdefghijklmnopqrstuvwxyz0123456789"

def charsList : List Char := chars.toList

/-- One whole 8-character draw of the generator loop body. -/
def drawCode (d : Fin 8 → Fin 62) : String :=
  String.mk ((List.finRange 8).map (fun i => charsList.getD (d i).val 'A'))

/-- `generateShortCode`: repeat 8-character draws until the drawn code is
not in the index.  The oracle list `ds` supplies the `Math.random`
draws, one 8-tuple per attempt; `none` models the loop still running
when the oracle is exhausted. -/
def UrlService.generateShortCode (s : UrlService) :
    List (Fin 8 → Fin 62) → Option String
  | [] => none
  | d :: rest =>
    let code := drawCode d
    if (mapGet s.shortCodeToId code).isSome then
      UrlService.generateShortCode s rest
    else some code

/-- `/^[a-zA-Z0-9]+$/` character test. -/
def alphanumChar (c : Char) : Bool :=
  (decide ('A' ≤ c) && decide (c ≤ 'Z')) ||
  (decide ('a' ≤ c) && decide (c ≤ 'z')) ||
  (decide ('0' ≤ c) && decide (c ≤ '9'))

/-- `validateShortCode`: length in [3,20], alphanumeric, not already in
the code index.  (`!shortCode` in the source is subsumed by the length
check: an empty string has length 0 < 3 and yields the same error.) -/
def UrlService.validateShortCode (s : UrlService) (shortCode : String) :
    UrlValidationResult :=
  if shortCode.length < 3 ∨ 20 < shortCode.length then
    ⟨false, some "Shortcode must be between 3 and 20 characters"⟩
  else if !(shortCode.toList.all alphanumChar) then
    ⟨false, some "Shortcode must contain only letters and numbers"⟩
  else if (mapGet s.shortCodeToId shortCode).isSome then
    ⟨false, some "Shortcode already exists"⟩
  else ⟨true, none⟩

/-- `validateLongUrl`, with `new URL(url).protocol` supplied as the
oracle `parseProtocol` (`none` models the constructor throwing). -/
def validateLongUrl (parseProtocol : String → Option String)
    (url : String) : UrlValidationResult :=
  match parseProtocol url with
  | none => ⟨false, some "Invalid URL format"⟩
  | some p =>
    if p = "http:" ∨ p = "https:" then ⟨true, none⟩
    else ⟨false, some "URL must use HTTP or HTTPS protocol"⟩

/-- `request.validityMinutes || 30`: JavaScript `||`, so `0` (falsy)
falls back to the default 30 exactly like an omitted value. -/
def effectiveValidityMinutes (request : CreateUrlRequest) : Int :=
  match request.validityMinutes with
  | some v => if v = 0 then 30 else v
  | none => 30

/-- The `urlEntry` object literal built by `createShortUrl`:
`id = Date.now().toString()`, timestamps from the same clock reading,
`clicks = 0`, `isValid = true`. -/
def createdEntry (origin : String) (now : Int) (shortCode : String)
    (request : CreateUrlRequest) : UrlEntry :=
  { id := toString now
    longUrl := request.longUrl
    shortUrl := origin ++ "/" ++ shortCode
    shortCode := shortCode
    createdAt := now
    expiresAt := now + effectiveValidityMinutes request * 60 * 1000
    clicks := 0
    isValid := true
    customShortCode := request.customShortCode }

/-- Tail of `createShortUrl` after a short code has been settled: build
the entry, insert into both maps and persist. -/
def UrlService.finishCreate (s : UrlService) (origin : String) (now : Int)
    (shortCode : String) (request : CreateUrlRequest) :
    CreateUrlResponse × UrlService :=
  let urlEntry := createdEntry origin now shortCode request
  let s1 := { s with
    urlEntries := mapSet s.urlEntries urlEntry.id urlEntry,
    shortCodeToId := mapSet s.shortCodeToId shortCode urlEntry.id }
  (⟨true, some urlEntry, none⟩, s1.saveToStorage)

/-- `createShortUrl`.  `if (request.customShortCode)` is a JS truthiness
test, so `some ""` falls through to the generator like `none`.  The
overall `none` result models the generator loop never terminating. -/
def UrlService.createShortUrl (parseProtocol : String → Option String)
    (origin : String) (now : Int) (ds : List (Fin 8 → Fin 62)) (s : UrlService)
    (request : CreateUrlRequest) :
    Option (CreateUrlResponse × UrlService) :=
  let urlValidation := validateLongUrl parseProtocol request.longUrl
  if urlValidation.isValid = false then
    some (⟨false, none, urlValidation.error⟩, s)
  else
    match request.customShortCode with
    | some c =>
      if c ≠ "" then
        let v := s.validateShortCode c
        if v.isValid = false then some (⟨false, none, v.error⟩, s)
        else some (s.finishCreate origin now c request)
      else
        (s.generateShortCode ds).map
          (fun g => s.finishCreate origin now g request)
    | none =>
      (s.generateShortCode ds).map
        (fun g => s.finishCreate origin now g request)

/-- `getUrlByShortCode` (the spec's `resolve`): code → id → entry; if
`now > expiresAt` flip `isValid`, store back under `entry.id`, persist
and report not-found. -/
def UrlService.getUrlByShortCode (s : UrlService) (now : Int)
    (shortCode : String) : Option UrlEntry × UrlService :=
  match mapGet s.shortCodeToId shortCode with
  | none => (none, s)
  | some urlId =>
    match mapGet s.urlEntries urlId with
    | none => (none, s)
    | some urlEntry =>
      if urlEntry.expiresAt < now then
        let updated := { urlEntry with isValid := false }
        (none, UrlService.saveToStorage
          { s with urlEntries := mapSet s.urlEntries updated.id updated })
      else (some urlEntry, s)

/-- `incrementClicks`: resolve, then bump `clicks`, store back and
persist. -/
def UrlService.incrementClicks (s : UrlService) (now : Int)
    (shortCode : String) : Bool × UrlService :=
  match s.getUrlByShortCode now shortCode with
  | (none, s1) => (false, s1)
  | (some urlEntry, s1) =>
    let updated := { urlEntry with clicks := urlEntry.clicks + 1 }
    (true, UrlService.saveToStorage
      { s1 with urlEntries := mapSet s1.urlEntries updated.id updated })

/-- `incrementClicks` called `n` times in succession at a fixed clock;
the boolean is the conjunction of all the returned booleans. -/
def UrlService.incrementClicksN (s : UrlService) (now : Int)
    (shortCode : String) : Nat → Bool × UrlService
  | 0 => (true, s)
  | n + 1 =>
    let r := s.incrementClicks now shortCode
    let rest := UrlService.incrementClicksN r.2 now shortCode n
    (r.1 && rest.1, rest.2)

/-- `deleteUrl`: absent id → `false`, no mutation, no save; present id →
remove both mappings, persist, `true`. -/
def UrlService.deleteUrl (s : UrlService) (id : String) :
    Bool × UrlService :=
  match mapGet s.urlEntries id with
  | none => (false, s)
  | some urlEntry =>
    (true, UrlService.saveToStorage
      { s with urlEntries := mapDelete s.urlEntries id,
               shortCodeToId := mapDelete s.shortCodeToId
                 urlEntry.shortCode })

/-- One step of the removal loop of `cleanupExpiredUrls`: look the id up
(in the already-marked map), delete its code from the index if found,
then delete the id. -/
def cleanupStep (st : UrlService) (id : String) : UrlService :=
  let st1 := match mapGet st.urlEntries id with
    | some e => { st with
        shortCodeToId := mapDelete st.shortCodeToId e.shortCode }
    | none => st
  { st1 with urlEntries := mapDelete st1.urlEntries id }

/-- The ids collected by the first `forEach` of `cleanupExpiredUrls`:
every id whose entry has `expiresAt < now`. -/
def expiredIdsOf (s : UrlService) (now : Int) : List String :=
  (s.urlEntries.filter (fun p => decide (p.2.expiresAt < now))).map
    Prod.fst

/-- The `isValid = false` marking the first `forEach` performs on every
expired entry (a mutation of the shared entry objects). -/
def markExpired (s : UrlService) (now : Int) : UrlService :=
  { s with urlEntries := s.urlEntries.map (fun p =>
      if p.2.expiresAt < now then (p.1, { p.2 with isValid := false })
      else p) }

/-- `cleanupExpiredUrls` (the spec's `sweepExpired`): collect ids with
`expiresAt < now`, mark those entries `isValid = false`, remove each
collected id from both maps, persist only when something was removed,
and return the count. -/
def UrlService.cleanupExpiredUrls (s : UrlService) (now : Int) :
    Nat × UrlService :=
  let expiredIds := expiredIdsOf s now
  let s1 := expiredIds.foldl cleanupStep (markExpired s now)
  if 0 < expiredIds.length then
    (expiredIds.length, s1.saveToStorage)
  else (expiredIds.length, s1)

/-! ### Association-list (JS `Map`) lemmas -/

variable {α : Type}

theorem mapGet_nil (k : String) : mapGet ([] : List (String × α)) k = none :=
  rfl

theorem mapGet_cons (p : String × α) (t : List (String × α)) (k : String) :
    mapGet (p :: t) k = if p.1 = k then some p.2 else mapGet t k := by
  by_cases h : p.1 = k <;> simp [mapGet, List.find?_cons, h]

theorem mapGet_append (m₁ m₂ : List (String × α)) (k : String) :
    mapGet (m₁ ++ m₂) k =
      match mapGet m₁ k with
      | some v => some v
      | none => mapGet m₂ k := by
  induction m₁ with
  | nil => simp [mapGet]
  | cons p t ih =>
    by_cases h : p.1 = k <;> simp [mapGet_cons, h, ih]

theorem mapGet_replace_ne (t : List (String × α)) (k : String) (v : α)
    (k' : String) (hk : k' ≠ k) :
    mapGet (t.map (replaceKey k v)) k' = mapGet t k' := by
  induction t with
  | nil => rfl
  | cons p t ih =>
    rw [List.map_cons, mapGet_cons, mapGet_cons]
    by_cases hp : p.1 = k
    · rw [show replaceKey k v p = (k, v) by simp [replaceKey, hp]]
      have h1 : ¬ (k, v).1 = k' := Ne.symm hk
      have h2 : ¬ p.1 = k' := by rw [hp]; exact Ne.symm hk
      rw [if_neg h1, if_neg h2, ih]
    · rw [show replaceKey k v p = p by simp [replaceKey, hp]]
      rw [ih]

theorem mapGet_replace_self (t : List (String × α)) (k : String) (v : α)
    (hany : t.any (fun p => p.1 == k)) :
    mapGet (t.map (replaceKey k v)) k = some v := by
  induction t with
  | nil => simp at hany
  | cons p t ih =>
    simp only [List.any_cons, Bool.or_eq_true, beq_iff_eq] at hany
    rw [List.map_cons, mapGet_cons]
    by_cases hp : p.1 = k
    · rw [show replaceKey k v p = (k, v) by simp [replaceKey, hp]]
      simp
    · rw [show replaceKey k v p = p by simp [replaceKey, hp]]
      have ht : t.any (fun p => p.1 == k) := by
        rcases hany with h | h
        · exact absurd h hp
        · exact h
      rw [if_neg hp, ih ht]

theorem mapGet_eq_none_of_not_any (t : List (String × α)) (k : String)
    (hany : ¬ t.any (fun p => p.1 == k)) : mapGet t k = none := by
  induction t with
  | nil => rfl
  | cons p t ih =>
    simp only [List.any_cons, Bool.or_eq_true, beq_iff_eq] at hany
    push_neg at hany
    simp [mapGet_cons, hany.1, ih (by simpa using hany.2)]

theorem mapGet_set (m : List (String × α)) (k : String) (v : α)
    (k' : String) :
    mapGet (mapSet m k v) k' = if k' = k then some v else mapGet m k' := by
  unfold mapSet
  split
  case isTrue hany =>
    by_cases hk : k' = k
    · subst hk; simp [mapGet_replace_self m k' v hany]
    · simp [mapGet_replace_ne m k v k' hk, hk]
  case isFalse hany =>
    rw [mapGet_append]
    by_cases hk : k' = k
    · subst hk
      simp [mapGet_eq_none_of_not_any m k' hany, mapGet_cons]
    · cases h : mapGet m k' <;>
        simp [mapGet_cons, hk, Ne.symm hk, h, mapGet_nil]

theorem mapGet_delete (m : List (String × α)) (k k' : String) :
    mapGet (mapDelete m k) k' = if k' = k then none else mapGet m k' := by
  induction m with
  | nil =>
    show mapGet [] k' = _
    rw [mapGet_nil]
    split <;> rfl
  | cons p t ih =>
    by_cases hp : p.1 = k
    · have hd : mapDelete (p :: t) k = mapDelete t k := by
        simp [mapDelete, List.filter_cons, hp]
      rw [hd, ih]
      by_cases hk : k' = k
      · simp [hk]
      · have hpk' : ¬ p.1 = k' := by rw [hp]; exact Ne.symm hk
        simp [hk, mapGet_cons, hpk']
    · have hd : mapDelete (p :: t) k = p :: mapDelete t k := by
        simp [mapDelete, List.filter_cons, hp]
      rw [hd, mapGet_cons, ih, mapGet_cons]
      by_cases hk : k' = k
      · subst hk; simp [hp]
      · simp [hk]

theorem mapGet_eq_none_iff (m : List (String × α)) (k : String) :
    mapGet m k = none ↔ ∀ p ∈ m, p.1 ≠ k := by
  simp [mapGet, List.find?_eq_none]

theorem mapGet_some_mem (m : List (String × α)) (k : String) (v : α)
    (h : mapGet m k = some v) : (k, v) ∈ m := by
  induction m with
  | nil => simp [mapGet_nil] at h
  | cons p t ih =>
    rw [mapGet_cons] at h
    by_cases hp : p.1 = k
    · rw [if_pos hp] at h
      have hpv : p = (k, v) := by
        cases p
        simp only [Option.some.injEq] at h
        simp_all
      rw [← hpv]
      exact List.mem_cons_self _ _
    · rw [if_neg hp] at h
      exact List.mem_cons_of_mem _ (ih h)

theorem mem_mapSet (m : List (String × α)) (k : String) (v : α)
    (p : String × α) (h : p ∈ mapSet m k v) : p ∈ m ∨ p = (k, v) := by
  unfold mapSet at h
  split at h
  · rcases List.mem_map.mp h with ⟨q, hq, hrep⟩
    unfold replaceKey at hrep
    split at hrep
    · right; exact hrep.symm
    · left; exact hrep ▸ hq
  · rcases List.mem_append.mp h with h | h
    · left; exact h
    · right; simpa using h

theorem mem_mapDelete (m : List (String × α)) (k : String)
    (p : String × α) (h : p ∈ mapDelete m k) : p ∈ m :=
  List.mem_of_mem_filter h

/-! ### Shape of a successful creation -/

/-- A successful `createShortUrl` result is `finishCreate` at some code:
the validated custom code, or a freshly generated one. -/
theorem createShortUrl_success_shape (pp : String → Option String)
    (origin : String) (now : Int) (ds : List (Fin 8 → Fin 62)) (s : UrlService)
    (req : CreateUrlRequest) (r : CreateUrlResponse) (s1 : UrlService)
    (h : UrlService.createShortUrl pp origin now ds s req = some (r, s1))
    (hs : r.success = true) :
    ∃ sc, s.finishCreate origin now sc req = (r, s1) ∧
      ((req.customShortCode = some sc ∧ sc ≠ "" ∧
        (s.validateShortCode sc).isValid = true) ∨
       s.generateShortCode ds = some sc) := by
  simp only [UrlService.createShortUrl] at h
  split at h
  · simp only [Option.some.injEq, Prod.mk.injEq] at h
    rw [← h.1] at hs
    simp at hs
  · split at h
    · rename_i c hc
      split at h
      · rename_i hne
        split at h
        · simp only [Option.some.injEq, Prod.mk.injEq] at h
          rw [← h.1] at hs
          simp at hs
        · rename_i hvc
          simp only [Option.some.injEq] at h
          exact ⟨c, h, Or.inl ⟨hc, hne, by
            revert hvc
            cases (s.validateShortCode c).isValid <;> simp⟩⟩
      · rcases Option.map_eq_some'.mp h with ⟨g, hg, hfg⟩
        exact ⟨g, hfg, Or.inr hg⟩
    · rcases Option.map_eq_some'.mp h with ⟨g, hg, hfg⟩
      exact ⟨g, hfg, Or.inr hg⟩

/-- Resolving the just-created code at query time `t` yields the created
entry iff `t` is not past its expiry. -/
theorem getAfterCreate_fst (s : UrlService) (origin : String)
    (now t : Int) (sc : String) (req : CreateUrlRequest) :
    ((s.finishCreate origin now sc req).2.getUrlByShortCode t sc).1 =
      if (createdEntry origin now sc req).expiresAt < t then none
      else some (createdEntry origin now sc req) := by
  simp [UrlService.finishCreate, UrlService.saveToStorage,
    UrlService.getUrlByShortCode, mapGet_set,
    show (createdEntry origin now sc req).id = toString now from rfl]
  split <;> simp

/-- C1: `resolve` on a stored entry returns not-found, flips `isValid`
and persists when `now > expiresAt`, and returns the entry untouched
otherwise; in particular an entry created with `validityMinutes = 1`
resolves at `createdAt + 59s` and is not found at `createdAt + 61s`. -/
theorem claim_C1 (s : UrlService) (now : Int) (code uid : String)
    (e : UrlEntry) (hidx : mapGet s.shortCodeToId code = some uid)
    (hent : mapGet s.urlEntries uid = some e) (hid : e.id = uid) :
    (e.expiresAt < now →
      s.getUrlByShortCode now code =
        (none, UrlService.saveToStorage
          { s with urlEntries :=
              mapSet s.urlEntries uid ({ e with isValid := false }) })) ∧
    (¬ e.expiresAt < now →
      s.getUrlByShortCode now code = (some e, s)) ∧
    (∀ (pp : String → Option String) (origin : String)
        (ds : List (Fin 8 → Fin 62)) (req : CreateUrlRequest)
        (r : CreateUrlResponse) (s1 : UrlService),
      req.validityMinutes = some 1 →
      UrlService.createShortUrl pp origin now ds s req = some (r, s1) →
      r.success = true →
      ∀ e1, r.urlEntry = some e1 →
        (s1.getUrlByShortCode (now + 59 * 1000) e1.shortCode).1 = some e1 ∧
        (s1.getUrlByShortCode (now + 61 * 1000) e1.shortCode).1 = none) := by
  refine ⟨?_, ?_, ?_⟩
  · intro hexp
    simp [UrlService.getUrlByShortCode, hidx, hent, hexp, hid]
  · intro hexp
    simp [UrlService.getUrlByShortCode, hidx, hent, hexp]
  · intro pp origin ds req r s1 hvm hcreate hsucc e1 hentry
    obtain ⟨sc, hfc, -⟩ :=
      createShortUrl_success_shape pp origin now ds s req r s1 hcreate hsucc
    have hr : (s.finishCreate origin now sc req).1 = r := by rw [hfc]
    have hs1 : (s.finishCreate origin now sc req).2 = s1 := by rw [hfc]
    have he1 : e1 = createdEntry origin now sc req := by
      rw [← hr] at hentry
      simpa [UrlService.finishCreate, eq_comm] using hentry
    have hsc : e1.shortCode = sc := by rw [he1]; rfl
    have hexp : (createdEntry origin now sc req).expiresAt =
        now + 60000 := by
      simp [createdEntry, effectiveValidityMinutes, hvm]
    constructor
    · rw [← hs1, hsc, getAfterCreate_fst, hexp, if_neg (by omega), he1]
    · rw [← hs1, hsc, getAfterCreate_fst, hexp, if_pos (by omega)]

/-- A concrete stored entry used to instantiate the theorems. -/
def sampleEntry : UrlEntry :=
  { id := "1000"
    longUrl := "https://example.com/page"
    shortUrl := "http://localhost:3000/abc12345"
    shortCode := "abc12345"
    createdAt := 1000
    expiresAt := 61000
    clicks := 0
    isValid := true
    customShortCode := none }

/-- A concrete service state holding `sampleEntry`. -/
def sampleService : UrlService :=
  { urlEntries := [("1000", sampleEntry)]
    shortCodeToId := [("abc12345", "1000")]
    saves := 0 }

/-- Witness for C1 at the concrete state: expired at `now = 70000`,
served at `now = 50000`. -/
theorem claim_C1_witness :
    UrlService.getUrlByShortCode sampleService 70000 "abc12345" =
      (none, UrlService.saveToStorage
        { sampleService with
            urlEntries := mapSet sampleService.urlEntries "1000"
              ({ sampleEntry with isValid := false }) }) ∧
    UrlService.getUrlByShortCode sampleService 50000 "abc12345" =
      (some sampleEntry, sampleService) :=
  ⟨(claim_C1 sampleService 70000 "abc12345" "1000" sampleEntry
      (by decide) (by decide) (by decide)).1 (by decide),
   (claim_C1 sampleService 50000 "abc12345" "1000" sampleEntry
      (by decide) (by decide) (by decide)).2.1 (by decide)⟩

/-- Repeated `incrementClicks` on a live, well-indexed entry: every call
succeeds, the entry's `clicks` grows by the number of calls, the code
index is untouched and every other id is untouched. -/
theorem incrementClicksN_live (now : Int) (code uid : String) (n : Nat) :
    ∀ (s : UrlService) (e : UrlEntry),
      mapGet s.shortCodeToId code = some uid →
      mapGet s.urlEntries uid = some e → e.id = uid →
      ¬ e.expiresAt < now →
      ∃ s2, UrlService.incrementClicksN s now code n = (true, s2) ∧
        mapGet s2.urlEntries uid = some { e with clicks := e.clicks + n } ∧
        s2.shortCodeToId = s.shortCodeToId ∧
        ∀ k, k ≠ uid → mapGet s2.urlEntries k = mapGet s.urlEntries k := by
  induction n with
  | zero =>
    intro s e hidx hent hid hlive
    exact ⟨s, rfl, by simpa using hent, rfl, fun k _ => rfl⟩
  | succ n ih =>
    intro s e hidx hent hid hlive
    have hstep : s.incrementClicks now code =
        (true, UrlService.saveToStorage
          { s with urlEntries :=
              mapSet s.urlEntries uid ({ e with clicks := e.clicks + 1 }) }) := by
      simp [UrlService.incrementClicks, UrlService.getUrlByShortCode,
        hidx, hent, hlive, hid]
    set s1 : UrlService := UrlService.saveToStorage
      { s with urlEntries :=
          mapSet s.urlEntries uid ({ e with clicks := e.clicks + 1 }) } with hs1
    obtain ⟨s2, h1, h2, h3, h4⟩ :=
      ih s1 { e with clicks := e.clicks + 1 }
        (by simpa [hs1, UrlService.saveToStorage] using hidx)
        (by simp [hs1, UrlService.saveToStorage, mapGet_set])
        hid hlive
    refine ⟨s2, ?_, ?_, ?_, ?_⟩
    · simp only [UrlService.incrementClicksN, hstep, h1, Bool.true_and]
    · simpa [Nat.add_assoc, Nat.add_comm 1 n] using h2
    · rw [h3]; simp [hs1, UrlService.saveToStorage]
    · intro k hk
      rw [h4 k hk]
      simp [hs1, UrlService.saveToStorage, mapGet_set, hk]

/-- C2: on a code mapping to a live entry, `incrementClicks` called `N`
times succeeds every time and raises that entry's `clicks` by exactly
`N` (other ids untouched); on an expired or unknown code it returns
failure and no stored entry's `clicks` changes. -/
theorem claim_C2 (now : Int) (s : UrlService) (code : String) :
    (∀ uid e n, mapGet s.shortCodeToId code = some uid →
      mapGet s.urlEntries uid = some e → e.id = uid →
      ¬ e.expiresAt < now →
      ∃ s2, UrlService.incrementClicksN s now code n = (true, s2) ∧
        mapGet s2.urlEntries uid = some { e with clicks := e.clicks + n } ∧
        ∀ k, k ≠ uid → mapGet s2.urlEntries k = mapGet s.urlEntries k) ∧
    ((∀ k e', mapGet s.urlEntries k = some e' → e'.id = k) →
      (∀ uid, mapGet s.shortCodeToId code = some uid →
        ∀ e, mapGet s.urlEntries uid = some e → e.expiresAt < now) →
      (s.incrementClicks now code).1 = false ∧
      ∀ k, (mapGet (s.incrementClicks now code).2.urlEntries k).map
          UrlEntry.clicks = (mapGet s.urlEntries k).map UrlEntry.clicks) := by
  constructor
  · intro uid e n hidx hent hid hlive
    obtain ⟨s2, h1, h2, _, h4⟩ :=
      incrementClicksN_live now code uid n s e hidx hent hid hlive
    exact ⟨s2, h1, h2, h4⟩
  · intro hWF hun
    cases hidx : mapGet s.shortCodeToId code with
    | none =>
      have : s.incrementClicks now code = (false, s) := by
        simp [UrlService.incrementClicks, UrlService.getUrlByShortCode, hidx]
      rw [this]
      exact ⟨rfl, fun k => rfl⟩
    | some uid =>
      cases hent : mapGet s.urlEntries uid with
      | none =>
        have : s.incrementClicks now code = (false, s) := by
          simp [UrlService.incrementClicks, UrlService.getUrlByShortCode,
            hidx, hent]
        rw [this]
        exact ⟨rfl, fun k => rfl⟩
      | some e =>
        have hexp : e.expiresAt < now := hun uid hidx e hent
        have hid : e.id = uid := hWF uid e hent
        have : s.incrementClicks now code =
            (false, UrlService.saveToStorage
              { s with urlEntries :=
                  mapSet s.urlEntries uid ({ e with isValid := false }) }) := by
          simp [UrlService.incrementClicks, UrlService.getUrlByShortCode,
            hidx, hent, hexp, hid]
        rw [this]
        refine ⟨rfl, fun k => ?_⟩
        by_cases hk : k = uid
        · subst hk
          simp [UrlService.saveToStorage, mapGet_set, hent]
        · simp [UrlService.saveToStorage, mapGet_set, hk]

/-- Witness for C2: three clicks on the live sample code reach
`clicks = 3`; a click on an unknown code fails. -/
theorem claim_C2_witness :
    (UrlService.incrementClicksN sampleService 50000 "abc12345" 3).1 =
      true ∧
    (mapGet (UrlService.incrementClicksN sampleService 50000
        "abc12345" 3).2.urlEntries "1000").map UrlEntry.clicks =
      some 3 ∧
    (UrlService.incrementClicks sampleService 50000 "missing").1 =
      false := by
  obtain ⟨s2, h1, h2, -⟩ :=
    (claim_C2 50000 sampleService "abc12345").1 "1000" sampleEntry 3
      (by decide) (by decide) (by decide) (by decide)
  have h3 := (claim_C2 50000 sampleService "missing").2
    (by
      intro k e' h
      rw [show sampleService.urlEntries = [("1000", sampleEntry)] from rfl,
        mapGet_cons] at h
      split at h
      · rename_i hk
        simp only [Option.some.injEq] at h
        rw [← h]
        exact hk.symm ▸ rfl
      · simp [mapGet_nil] at h)
    (by
      intro uid h
      rw [show mapGet sampleService.shortCodeToId "missing" =
        (none : Option String) from by decide] at h
      exact Option.noConfusion h)
  refine ⟨by rw [h1], by rw [h1]; rw [h2]; rfl, h3.1⟩

/-! ### Lemmas on the sweep's removal fold -/

theorem cleanupStep_urlEntries (st : UrlService) (id : String) :
    (cleanupStep st id).urlEntries = mapDelete st.urlEntries id := by
  unfold cleanupStep
  cases hg : mapGet st.urlEntries id <;> simp [hg]

theorem cleanupStep_index_none (st : UrlService) (i c : String)
    (h : mapGet st.shortCodeToId c = none) :
    mapGet (cleanupStep st i).shortCodeToId c = none := by
  unfold cleanupStep
  cases hg : mapGet st.urlEntries i with
  | none => simpa [hg] using h
  | some e =>
    simp only [hg]
    rw [mapGet_delete]
    split
    · rfl
    · exact h

theorem cleanupFold_entries_none (ids : List String) :
    ∀ (st : UrlService) (k : String), mapGet st.urlEntries k = none →
      mapGet (ids.foldl cleanupStep st).urlEntries k = none := by
  induction ids with
  | nil => intro st k h; exact h
  | cons i t ih =>
    intro st k h
    apply ih
    rw [cleanupStep_urlEntries, mapGet_delete]
    split
    · rfl
    · exact h

theorem cleanupFold_index_none (ids : List String) :
    ∀ (st : UrlService) (c : String), mapGet st.shortCodeToId c = none →
      mapGet (ids.foldl cleanupStep st).shortCodeToId c = none := by
  induction ids with
  | nil => intro st c h; exact h
  | cons i t ih =>
    intro st c h
    exact ih _ c (cleanupStep_index_none st i c h)

theorem cleanupFold_entries_mem (ids : List String) :
    ∀ (st : UrlService) (k : String), k ∈ ids →
      mapGet (ids.foldl cleanupStep st).urlEntries k = none := by
  induction ids with
  | nil => intro st k h; cases h
  | cons i t ih =>
    intro st k h
    rw [List.foldl_cons]
    rcases List.mem_cons.mp h with h | h
    · subst h
      apply cleanupFold_entries_none
      rw [cleanupStep_urlEntries, mapGet_delete, if_pos rfl]
    · exact ih _ k h

theorem cleanupFold_entries_not_mem (ids : List String) :
    ∀ (st : UrlService) (k : String), k ∉ ids →
      mapGet (ids.foldl cleanupStep st).urlEntries k =
        mapGet st.urlEntries k := by
  induction ids with
  | nil => intro st k _; rfl
  | cons i t ih =>
    intro st k h
    simp only [List.mem_cons, not_or] at h
    rw [List.foldl_cons, ih _ k h.2, cleanupStep_urlEntries,
      mapGet_delete, if_neg h.1]

theorem cleanupFold_index_deleted (ids : List String) :
    ∀ (st : UrlService), ids.Nodup → ∀ (k : String) (e : UrlEntry),
      k ∈ ids → mapGet st.urlEntries k = some e →
      mapGet (ids.foldl cleanupStep st).shortCodeToId e.shortCode =
        none := by
  induction ids with
  | nil => intro st _ k e hmem _; cases hmem
  | cons i t ih =>
    intro st hnd k e hmem hent
    rw [List.foldl_cons]
    rcases List.mem_cons.mp hmem with h | h
    · subst h
      apply cleanupFold_index_none
      unfold cleanupStep
      simp only [hent]
      rw [mapGet_delete, if_pos rfl]
    · have hik : k ≠ i := fun hh =>
        (List.nodup_cons.mp hnd).1 (hh ▸ h)
      apply ih _ (List.nodup_cons.mp hnd).2 k e h
      rw [cleanupStep_urlEntries, mapGet_delete, if_neg hik]
      exact hent

theorem cleanupFold_entries_subset (ids : List String) :
    ∀ (st : UrlService) (p : String × UrlEntry),
      p ∈ (ids.foldl cleanupStep st).urlEntries → p ∈ st.urlEntries := by
  induction ids with
  | nil => intro st p h; exact h
  | cons i t ih =>
    intro st p h
    have h1 := ih _ p h
    rw [cleanupStep_urlEntries] at h1
    exact mem_mapDelete _ _ _ h1

theorem mapGet_of_mem_nodup {α : Type} (m : List (String × α))
    (p : String × α) (hnd : (m.map Prod.fst).Nodup) (hp : p ∈ m) :
    mapGet m p.1 = some p.2 := by
  induction m with
  | nil => cases hp
  | cons q t ih =>
    rcases List.mem_cons.mp hp with h | h
    · subst h; rw [mapGet_cons, if_pos rfl]
    · have hq : q.1 ≠ p.1 := by
        intro hh
        exact (List.nodup_cons.mp hnd).1
          (hh ▸ List.mem_map_of_mem Prod.fst h)
      rw [mapGet_cons, if_neg hq]
      exact ih (List.nodup_cons.mp hnd).2 h

theorem cleanup_count (s : UrlService) (now : Int) :
    (s.cleanupExpiredUrls now).1 = (expiredIdsOf s now).length := by
  simp only [UrlService.cleanupExpiredUrls]
  split <;> rfl

theorem cleanup_entries (s : UrlService) (now : Int) :
    (s.cleanupExpiredUrls now).2.urlEntries =
      ((expiredIdsOf s now).foldl cleanupStep
        (markExpired s now)).urlEntries := by
  simp only [UrlService.cleanupExpiredUrls]
  split <;> rfl

theorem cleanup_index (s : UrlService) (now : Int) :
    (s.cleanupExpiredUrls now).2.shortCodeToId =
      ((expiredIdsOf s now).foldl cleanupStep
        (markExpired s now)).shortCodeToId := by
  simp only [UrlService.cleanupExpiredUrls]
  split <;> rfl

theorem markExpired_keys_aux (l : List (String × UrlEntry)) (now : Int) :
    (l.map (fun p => if p.2.expiresAt < now
        then (p.1, { p.2 with isValid := false }) else p)).map Prod.fst =
      l.map Prod.fst := by
  induction l with
  | nil => rfl
  | cons p t ih => by_cases h : p.2.expiresAt < now <;> simp [h, ih]

theorem mem_expiredIdsOf (s : UrlService) (now : Int)
    (p : String × UrlEntry) (hp : p ∈ s.urlEntries)
    (hexp : p.2.expiresAt < now) : p.1 ∈ expiredIdsOf s now :=
  List.mem_map_of_mem Prod.fst
    (List.mem_filter.mpr ⟨hp, by simpa using hexp⟩)

theorem expiredIdsOf_nodup (s : UrlService) (now : Int)
    (hnd : (s.urlEntries.map Prod.fst).Nodup) :
    (expiredIdsOf s now).Nodup :=
  List.Nodup.sublist ((List.filter_sublist _).map Prod.fst) hnd

theorem mem_unique_key {α : Type} (m : List (String × α))
    (hnd : (m.map Prod.fst).Nodup) (p q : String × α) (hp : p ∈ m)
    (hq : q ∈ m) (hk : q.1 = p.1) : q = p := by
  have h1 := mapGet_of_mem_nodup m p hnd hp
  have h2 := mapGet_of_mem_nodup m q hnd hq
  rw [hk, h1] at h2
  exact Prod.ext hk (Option.some.inj h2).symm

/-- C3: the sweep marks every entry with `expiresAt < now` invalid and
removes it from both maps, keeps the rest, returns exactly the number
removed, and a second immediate sweep returns 0. -/
theorem claim_C3 (s : UrlService) (now : Int)
    (hnd : (s.urlEntries.map Prod.fst).Nodup) :
    (s.cleanupExpiredUrls now).1 =
      (s.urlEntries.filter
        (fun p => decide (p.2.expiresAt < now))).length ∧
    (∀ p ∈ s.urlEntries, p.2.expiresAt < now →
      mapGet (markExpired s now).urlEntries p.1 =
        some { p.2 with isValid := false }) ∧
    (∀ p ∈ s.urlEntries, p.2.expiresAt < now →
      mapGet (s.cleanupExpiredUrls now).2.urlEntries p.1 = none ∧
      mapGet (s.cleanupExpiredUrls now).2.shortCodeToId
        p.2.shortCode = none) ∧
    (∀ p ∈ s.urlEntries, ¬ p.2.expiresAt < now →
      mapGet (s.cleanupExpiredUrls now).2.urlEntries p.1 = some p.2) ∧
    ((s.cleanupExpiredUrls now).2.cleanupExpiredUrls now).1 = 0 := by
  have hndM : ((markExpired s now).urlEntries.map Prod.fst).Nodup := by
    unfold markExpired
    rw [markExpired_keys_aux]
    exact hnd
  refine ⟨?_, ?_, ?_, ?_, ?_⟩
  · rw [cleanup_count]
    exact List.length_map _ _
  · intro p hp hexp
    have hmem : (p.1, { p.2 with isValid := false }) ∈
        (markExpired s now).urlEntries := by
      unfold markExpired
      exact List.mem_map.mpr ⟨p, hp, by simp [hexp]⟩
    exact mapGet_of_mem_nodup _ _ hndM hmem
  · intro p hp hexp
    constructor
    · rw [cleanup_entries]
      exact cleanupFold_entries_mem _ _ _ (mem_expiredIdsOf s now p hp hexp)
    · rw [cleanup_index]
      have hmem : (p.1, { p.2 with isValid := false }) ∈
          (markExpired s now).urlEntries := by
        unfold markExpired
        exact List.mem_map.mpr ⟨p, hp, by simp [hexp]⟩
      have hent : mapGet (markExpired s now).urlEntries p.1 =
          some { p.2 with isValid := false } :=
        mapGet_of_mem_nodup _ _ hndM hmem
      exact cleanupFold_index_deleted _ _
        (expiredIdsOf_nodup s now hnd) p.1
        ({ p.2 with isValid := false })
        (mem_expiredIdsOf s now p hp hexp) hent
  · intro p hp hexp
    have hnotmem : p.1 ∉ expiredIdsOf s now := by
      intro hmem
      unfold expiredIdsOf at hmem
      rcases List.mem_map.mp hmem with ⟨q, hq, hk⟩
      obtain ⟨hq1, hq2⟩ := List.mem_filter.mp hq
      have hqp : q = p := mem_unique_key s.urlEntries hnd p q hp hq1 hk
      rw [hqp] at hq2
      exact hexp (by simpa using hq2)
    rw [cleanup_entries, cleanupFold_entries_not_mem _ _ _ hnotmem]
    have hmem : p ∈ (markExpired s now).urlEntries := by
      unfold markExpired
      exact List.mem_map.mpr ⟨p, hp, by simp [hexp]⟩
    exact mapGet_of_mem_nodup _ p hndM hmem
  · rw [cleanup_count]
    have hfil : (s.cleanupExpiredUrls now).2.urlEntries.filter
        (fun p => decide (p.2.expiresAt < now)) = [] := by
      rw [List.filter_eq_nil_iff]
      intro q hq
      rw [cleanup_entries] at hq
      have hqM := cleanupFold_entries_subset _ _ _ hq
      unfold markExpired at hqM
      rcases List.mem_map.mp hqM with ⟨p0, hp0, hfn⟩
      by_cases hexp0 : p0.2.expiresAt < now
      · have hq1 : q.1 = p0.1 := by rw [← hfn]; simp [hexp0]
        have hnone := cleanupFold_entries_mem (expiredIdsOf s now)
          (markExpired s now) q.1
          (hq1 ▸ mem_expiredIdsOf s now p0 hp0 hexp0)
        exact absurd rfl ((mapGet_eq_none_iff _ _).mp hnone q hq)
      · have hq2 : q = p0 := by rw [← hfn]; simp [hexp0]
        rw [hq2]
        simpa using hexp0
    unfold expiredIdsOf
    rw [hfil]
    rfl

/-- Witness for C3: sweeping the sample state at `now = 70000` removes
the one expired entry from both maps and a second sweep removes
nothing. -/
theorem claim_C3_witness :
    (UrlService.cleanupExpiredUrls sampleService 70000).1 = 1 ∧
    mapGet (UrlService.cleanupExpiredUrls sampleService
      70000).2.urlEntries "1000" = none ∧
    mapGet (UrlService.cleanupExpiredUrls sampleService
      70000).2.shortCodeToId "abc12345" = none ∧
    ((UrlService.cleanupExpiredUrls sampleService
      70000).2.cleanupExpiredUrls 70000).1 = 0 := by
  have h := claim_C3 sampleService 70000 (by decide)
  obtain ⟨hcount, -, hrem, -, hidem⟩ := h
  have hr := hrem ("1000", sampleEntry) (by decide) (by decide)
  exact ⟨by rw [hcount]; decide, hr.1, hr.2, hidem⟩

/-! ### The `expiresAt > createdAt` invariant -/

/-- Every stored entry expires strictly after its creation. -/
def EntriesOK (s : UrlService) : Prop :=
  ∀ p ∈ s.urlEntries, p.2.createdAt < p.2.expiresAt

/-- Inverting a successful resolve: the state is untouched and the entry
is live and stored. -/
theorem getUrl_some_inv (s : UrlService) (now : Int) (code : String)
    (e : UrlEntry) (s1 : UrlService)
    (h : s.getUrlByShortCode now code = (some e, s1)) :
    s1 = s ∧ ∃ uid, mapGet s.shortCodeToId code = some uid ∧
      mapGet s.urlEntries uid = some e ∧ ¬ e.expiresAt < now := by
  cases hidx : mapGet s.shortCodeToId code with
  | none =>
    have he : s.getUrlByShortCode now code = (none, s) := by
      simp [UrlService.getUrlByShortCode, hidx]
    rw [he] at h
    simp at h
  | some uid =>
    cases hent : mapGet s.urlEntries uid with
    | none =>
      have he : s.getUrlByShortCode now code = (none, s) := by
        simp [UrlService.getUrlByShortCode, hidx, hent]
      rw [he] at h
      simp at h
    | some e' =>
      by_cases hexp : e'.expiresAt < now
      · have he : (s.getUrlByShortCode now code).1 = none := by
          simp [UrlService.getUrlByShortCode, hidx, hent, hexp]
        rw [h] at he
        simp at he
      · have he : s.getUrlByShortCode now code = (some e', s) := by
          simp [UrlService.getUrlByShortCode, hidx, hent, hexp]
        rw [he] at h
        simp only [Prod.mk.injEq, Option.some.injEq] at h
        exact ⟨h.2.symm, uid, rfl, h.1 ▸ hent, h.1 ▸ hexp⟩

theorem entriesOK_getUrl (s : UrlService) (now : Int) (code : String)
    (h : EntriesOK s) : EntriesOK (s.getUrlByShortCode now code).2 := by
  cases hidx : mapGet s.shortCodeToId code with
  | none =>
    have he : (s.getUrlByShortCode now code).2 = s := by
      simp [UrlService.getUrlByShortCode, hidx]
    rw [he]; exact h
  | some uid =>
    cases hent : mapGet s.urlEntries uid with
    | none =>
      have he : (s.getUrlByShortCode now code).2 = s := by
        simp [UrlService.getUrlByShortCode, hidx, hent]
      rw [he]; exact h
    | some e =>
      by_cases hexp : e.expiresAt < now
      · have he : (s.getUrlByShortCode now code).2 =
            UrlService.saveToStorage { s with
              urlEntries := mapSet s.urlEntries e.id
                ({ e with isValid := false }) } := by
          simp [UrlService.getUrlByShortCode, hidx, hent, hexp]
        rw [he]
        intro p hp
        rcases mem_mapSet _ _ _ p hp with hmem | hpe
        · exact h p hmem
        · rw [hpe]
          exact h (uid, e) (mapGet_some_mem _ _ _ hent)
      · have he : (s.getUrlByShortCode now code).2 = s := by
          simp [UrlService.getUrlByShortCode, hidx, hent, hexp]
        rw [he]; exact h

theorem entriesOK_increment (s : UrlService) (now : Int) (code : String)
    (h : EntriesOK s) : EntriesOK (s.incrementClicks now code).2 := by
  cases hres : s.getUrlByShortCode now code with
  | mk o s1 =>
    cases o with
    | none =>
      have he : (s.incrementClicks now code).2 = s1 := by
        simp [UrlService.incrementClicks, hres]
      rw [he]
      have h2 := entriesOK_getUrl s now code h
      rw [hres] at h2
      exact h2
    | some e =>
      obtain ⟨hs1, uid, hidx, hent, hexp⟩ :=
        getUrl_some_inv s now code e s1 hres
      have he : (s.incrementClicks now code).2 = UrlService.saveToStorage
          { s1 with
            urlEntries := mapSet s1.urlEntries e.id
              ({ e with clicks := e.clicks + 1 }) } := by
        simp [UrlService.incrementClicks, hres]
      rw [he, hs1]
      intro p hp
      rcases mem_mapSet _ _ _ p hp with hmem | hpe
      · exact h p hmem
      · rw [hpe]
        exact h (uid, e) (mapGet_some_mem _ _ _ hent)

theorem entriesOK_delete (s : UrlService) (id : String)
    (h : EntriesOK s) : EntriesOK (s.deleteUrl id).2 := by
  cases hent : mapGet s.urlEntries id with
  | none =>
    have he : (s.deleteUrl id).2 = s := by
      simp [UrlService.deleteUrl, hent]
    rw [he]; exact h
  | some e =>
    have he : (s.deleteUrl id).2 = UrlService.saveToStorage
        { s with
          urlEntries := mapDelete s.urlEntries id
          shortCodeToId := mapDelete s.shortCodeToId e.shortCode } := by
      simp [UrlService.deleteUrl, hent]
    rw [he]
    intro p hp
    exact h p (mem_mapDelete _ _ _ hp)

theorem entriesOK_cleanup (s : UrlService) (now : Int)
    (h : EntriesOK s) : EntriesOK (s.cleanupExpiredUrls now).2 := by
  intro p hp
  rw [cleanup_entries] at hp
  have hqM := cleanupFold_entries_subset _ _ _ hp
  unfold markExpired at hqM
  rcases List.mem_map.mp hqM with ⟨q, hq, hfn⟩
  by_cases hexp : q.2.expiresAt < now
  · have hpq : p = (q.1, { q.2 with isValid := false }) := by
      rw [← hfn]; simp [hexp]
    rw [hpq]
    exact h q hq
  · have hpq : p = q := by rw [← hfn]; simp [hexp]
    rw [hpq]
    exact h q hq

/-- C4 fails as stated: a successful `createShortUrl` with
`validityMinutes = -1` (accepted without validation) yields
`expiresAt < createdAt`. -/
theorem claim_C4_counterexample :
    ∃ r s1 e,
      UrlService.createShortUrl (fun _ => some "https:")
        "http://localhost:3000" 1000000 []
        (⟨[], [], 0⟩ : UrlService)
        { longUrl := "https://example.com/page"
          customShortCode := some "neg"
          validityMinutes := some (-1) } = some (r, s1) ∧
      r.success = true ∧ r.urlEntry = some e ∧
      e.expiresAt < e.createdAt := by
  refine ⟨_, _, _, rfl, rfl, rfl, by decide⟩

/-- C4 (amended): `expiresAt > createdAt` holds for every entry produced
by a successful `createShortUrl` whose caller-supplied
`validityMinutes` is nonnegative or omitted (a negative value is passed
through unvalidated and violates it), and the invariant is preserved by
every other mutating operation. -/
theorem claim_C4 (pp : String → Option String) (origin : String)
    (now : Int) (ds : List (Fin 8 → Fin 62)) (s : UrlService)
    (req : CreateUrlRequest)
    (hv : req.validityMinutes = none ∨
      ∃ v, req.validityMinutes = some v ∧ 0 ≤ v) :
    (∀ r s1, UrlService.createShortUrl pp origin now ds s req =
        some (r, s1) → r.success = true →
      (∀ e, r.urlEntry = some e → e.createdAt < e.expiresAt) ∧
      (EntriesOK s → EntriesOK s1)) ∧
    (∀ code, EntriesOK s →
      EntriesOK (s.getUrlByShortCode now code).2) ∧
    (∀ code, EntriesOK s →
      EntriesOK (s.incrementClicks now code).2) ∧
    (∀ id, EntriesOK s → EntriesOK (s.deleteUrl id).2) ∧
    (EntriesOK s → EntriesOK (s.cleanupExpiredUrls now).2) := by
  have heff : 0 < effectiveValidityMinutes req := by
    unfold effectiveValidityMinutes
    rcases hv with hv | ⟨v, hv, hnn⟩
    · rw [hv]; norm_num
    · rw [hv]
      by_cases hz : v = 0
      · simp only [hz, if_pos]; norm_num
      · simp only [if_neg hz]; omega
  refine ⟨?_, fun code => entriesOK_getUrl s now code,
    fun code => entriesOK_increment s now code,
    fun id => entriesOK_delete s id,
    entriesOK_cleanup s now⟩
  intro r s1 hcreate hsucc
  obtain ⟨sc, hfc, -⟩ :=
    createShortUrl_success_shape pp origin now ds s req r s1 hcreate hsucc
  have hr : (s.finishCreate origin now sc req).1 = r := by rw [hfc]
  have hs1 : (s.finishCreate origin now sc req).2 = s1 := by rw [hfc]
  have hgood : (createdEntry origin now sc req).createdAt <
      (createdEntry origin now sc req).expiresAt := by
    show now < now + effectiveValidityMinutes req * 60 * 1000
    have h1 : 0 < effectiveValidityMinutes req * 60 * 1000 := by
      have := Int.mul_pos (Int.mul_pos heff (by norm_num : (0:Int) < 60))
        (by norm_num : (0:Int) < 1000)
      simpa [Int.mul_assoc] using this
    omega
  constructor
  · intro e he
    rw [← hr] at he
    have : e = createdEntry origin now sc req := by
      simpa [UrlService.finishCreate, eq_comm] using he
    rw [this]
    exact hgood
  · intro hOK
    rw [← hs1]
    intro p hp
    simp only [UrlService.finishCreate, UrlService.saveToStorage] at hp
    rcases mem_mapSet _ _ _ p hp with hmem | hpe
    · exact hOK p hmem
    · rw [hpe]
      exact hgood

/-- Witness for C4 (amended): creating with `validityMinutes = 5` on the
empty store yields an entry with `createdAt < expiresAt` and a store
satisfying the invariant. -/
theorem claim_C4_witness :
    ∃ r s1 e,
      UrlService.createShortUrl (fun _ => some "https:") "o" 1000 []
        (⟨[], [], 0⟩ : UrlService)
        { longUrl := "https://u.example"
          customShortCode := some "xyz"
          validityMinutes := some 5 } = some (r, s1) ∧
      r.urlEntry = some e ∧ e.createdAt < e.expiresAt ∧
      EntriesOK s1 := by
  have h := (claim_C4 (fun _ => some "https:") "o" 1000 []
    (⟨[], [], 0⟩ : UrlService)
    { longUrl := "https://u.example"
      customShortCode := some "xyz"
      validityMinutes := some 5 }
    (Or.inr ⟨5, rfl, by decide⟩)).1 _ _ rfl rfl
  exact ⟨_, _, _, rfl, rfl, h.1 _ rfl,
    h.2 (fun p hp => absurd hp (List.not_mem_nil p))⟩

/-- C5 fails as stated: a caller-supplied `validityMinutes = 0` does not
give `expiresAt = createdAt + 0`; the falsy `0` silently selects the
30-minute default. -/
theorem claim_C5_counterexample :
    ∃ r s1 e,
      UrlService.createShortUrl (fun _ => some "https:") "o" 1000 []
        (⟨[], [], 0⟩ : UrlService)
        { longUrl := "https://u.example"
          customShortCode := some "zer"
          validityMinutes := some 0 } = some (r, s1) ∧
      r.success = true ∧ r.urlEntry = some e ∧
      e.expiresAt - e.createdAt ≠ 0 * 60 * 1000 ∧
      e.expiresAt - e.createdAt = 30 * 60 * 1000 := by
  refine ⟨_, _, _, rfl, rfl, rfl, by decide, by decide⟩

/-- C5 (amended): a successful creation starts with `clicks = 0` and
`isValid = true`; `expiresAt = createdAt + validityMinutes` holds for a
caller-supplied nonzero `validityMinutes`, while an omitted — or zero,
which JavaScript `||` treats as absent — value yields
`expiresAt = createdAt + 30` minutes. -/
theorem claim_C5 (pp : String → Option String) (origin : String)
    (now : Int) (ds : List (Fin 8 → Fin 62)) (s : UrlService)
    (req : CreateUrlRequest) (r : CreateUrlResponse) (s1 : UrlService)
    (hcreate : UrlService.createShortUrl pp origin now ds s req =
      some (r, s1)) (hsucc : r.success = true) :
    ∀ e, r.urlEntry = some e →
      e.clicks = 0 ∧ e.isValid = true ∧
      (∀ v, req.validityMinutes = some v → v ≠ 0 →
        e.expiresAt = e.createdAt + v * 60 * 1000) ∧
      ((req.validityMinutes = none ∨ req.validityMinutes = some 0) →
        e.expiresAt = e.createdAt + 30 * 60 * 1000) := by
  intro e he
  obtain ⟨sc, hfc, -⟩ :=
    createShortUrl_success_shape pp origin now ds s req r s1 hcreate hsucc
  have hr : (s.finishCreate origin now sc req).1 = r := by rw [hfc]
  rw [← hr] at he
  have hE : e = createdEntry origin now sc req := by
    simpa [UrlService.finishCreate, eq_comm] using he
  subst hE
  refine ⟨rfl, rfl, ?_, ?_⟩
  · intro v hv hvz
    show now + effectiveValidityMinutes req * 60 * 1000 =
      now + v * 60 * 1000
    unfold effectiveValidityMinutes
    rw [hv]
    simp only [if_neg hvz]
  · intro hv
    show now + effectiveValidityMinutes req * 60 * 1000 =
      now + 30 * 60 * 1000
    unfold effectiveValidityMinutes
    rcases hv with hv | hv
    · rw [hv]
    · rw [hv]
      norm_num

/-- Witness for C5 (amended), at the spec's scenario
(`validityMinutes = 30`): `clicks = 0`, `isValid = true`,
`expiresAt - createdAt = 30` minutes. -/
theorem claim_C5_witness :
    ∃ r s1 e,
      UrlService.createShortUrl (fun _ => some "https:") "o" 1000 []
        (⟨[], [], 0⟩ : UrlService)
        { longUrl := "https://example.com/page"
          customShortCode := some "page"
          validityMinutes := some 30 } = some (r, s1) ∧
      r.urlEntry = some e ∧ e.clicks = 0 ∧ e.isValid = true ∧
      e.expiresAt = e.createdAt + 30 * 60 * 1000 := by
  have h := claim_C5 (fun _ => some "https:") "o" 1000 []
    (⟨[], [], 0⟩ : UrlService)
    { longUrl := "https://example.com/page"
      customShortCode := some "page"
      validityMinutes := some 30 } _ _ rfl rfl _ rfl
  exact ⟨_, _, _, rfl, rfl, h.1, h.2.1,
    h.2.2.1 30 rfl (by decide)⟩

/-! ### Injectivity of the decimal rendering used for entry ids -/

/-- Number of decimal digits (`1` for `n < 10`). -/
def numDigits (n : Nat) : Nat :=
  if n < 10 then 1 else numDigits (n / 10) + 1
termination_by n
decreasing_by exact Nat.div_lt_self (by omega) (by norm_num)

theorem numDigits_small (n : Nat) (h : n < 10) : numDigits n = 1 := by
  rw [numDigits, if_pos h]

theorem numDigits_large (n : Nat) (h : ¬ n < 10) :
    numDigits n = numDigits (n / 10) + 1 := by
  rw [numDigits, if_neg h]

theorem digitChar_toNat10 (m : Nat) (h : m < 10) :
    (Nat.digitChar m).toNat = 48 + m := by
  interval_cases m <;> rfl

theorem toDigitsCore_val (fuel : Nat) : ∀ n, n < fuel →
    ∀ (a : Nat) (ds : List Char),
    (Nat.toDigitsCore 10 fuel n ds).foldl
        (fun a c => 10 * a + (c.toNat - 48)) a =
      ds.foldl (fun a c => 10 * a + (c.toNat - 48))
        (a * 10 ^ numDigits n + n) := by
  induction fuel with
  | zero => intro n h; exact absurd h (Nat.not_lt_zero n)
  | succ fuel ih =>
    intro n hn a ds
    rw [Nat.toDigitsCore]
    have hd : (Nat.digitChar (n % 10)).toNat = 48 + n % 10 :=
      digitChar_toNat10 _ (Nat.mod_lt _ (by norm_num))
    by_cases hz : n / 10 = 0
    · have hn10 : n < 10 := by omega
      rw [if_pos hz]
      simp only [List.foldl_cons]
      have harg : 10 * a + ((Nat.digitChar (n % 10)).toNat - 48) =
          a * 10 ^ numDigits n + n := by
        rw [hd, numDigits_small n hn10, pow_one]
        omega
      rw [harg]
    · rw [if_neg hz]
      have hlt : n / 10 < fuel := by
        have h1 : n / 10 < n := Nat.div_lt_self (by omega) (by norm_num)
        omega
      rw [ih (n / 10) hlt a (Nat.digitChar (n % 10) :: ds)]
      simp only [List.foldl_cons]
      have hnd : numDigits n = numDigits (n / 10) + 1 :=
        numDigits_large n (by omega)
      have harg : 10 * (a * 10 ^ numDigits (n / 10) + n / 10) +
          ((Nat.digitChar (n % 10)).toNat - 48) =
          a * 10 ^ numDigits n + n := by
        rw [hd, hnd, pow_succ, ← mul_assoc]
        omega
      rw [harg]

theorem toDigits_val (n : Nat) :
    (Nat.toDigits 10 n).foldl (fun a c => 10 * a + (c.toNat - 48)) 0 =
      n := by
  unfold Nat.toDigits
  rw [toDigitsCore_val (n + 1) n (Nat.lt_succ_self n) 0 []]
  simp

theorem Nat_repr_injective : Function.Injective Nat.repr := by
  intro m n h
  have hdata : Nat.toDigits 10 m = Nat.toDigits 10 n :=
    congrArg String.data h
  have hm := toDigits_val m
  rw [hdata, toDigits_val n] at hm
  exact hm.symm

theorem toString_int_nonneg_inj (a b : Nat)
    (h : toString (a : Int) = toString (b : Int)) : a = b :=
  Nat_repr_injective h

/-- C6 fails as stated: two successful creations in the same millisecond
(`Date.now() = 5000`) share the id `"5000"`, and the second silently
overwrites the first entry in the id map instead of failing. -/
theorem claim_C6_counterexample :
    ∃ r1 sA r2 sB e1 e2,
      UrlService.createShortUrl (fun _ => some "https:") "o" 5000 []
        (⟨[], [], 0⟩ : UrlService)
        { longUrl := "https://u.example"
          customShortCode := some "aaa" } = some (r1, sA) ∧
      UrlService.createShortUrl (fun _ => some "https:") "o" 5000 [] sA
        { longUrl := "https://u.example"
          customShortCode := some "bbb" } = some (r2, sB) ∧
      r1.success = true ∧ r2.success = true ∧
      r1.urlEntry = some e1 ∧ r2.urlEntry = some e2 ∧
      e1.id = e2.id ∧
      mapGet sB.urlEntries e1.id = some e2 ∧
      e2.shortCode ≠ e1.shortCode := by
  refine ⟨_, _, _, _, _, _, rfl, rfl, rfl, rfl, rfl, rfl, rfl,
    by decide, by decide⟩

/-- C6 (amended): ids equal the creation clock reading rendered in
decimal, so two successful creations at distinct (nonnegative epoch)
timestamps get distinct ids — same-millisecond creations collide; and
a creation whose custom short code is already in the index is rejected
by validation with the state unchanged, while insertion itself
performs no duplicate check. -/
theorem claim_C6 :
    (∀ (pp1 pp2 : String → Option String) (o1 o2 : String)
        (n1 n2 : Int) (ds1 ds2 : List (Fin 8 → Fin 62)) (s1 s2 : UrlService)
        (req1 req2 : CreateUrlRequest) (r1 r2 : CreateUrlResponse)
        (t1 t2 : UrlService),
      0 ≤ n1 → 0 ≤ n2 → n1 ≠ n2 →
      UrlService.createShortUrl pp1 o1 n1 ds1 s1 req1 = some (r1, t1) →
      r1.success = true →
      UrlService.createShortUrl pp2 o2 n2 ds2 s2 req2 = some (r2, t2) →
      r2.success = true →
      ∀ e1 e2, r1.urlEntry = some e1 → r2.urlEntry = some e2 →
        e1.id ≠ e2.id) ∧
    (∀ (pp : String → Option String) (origin : String) (now : Int)
        (ds : List (Fin 8 → Fin 62)) (s : UrlService) (req : CreateUrlRequest)
        (c uid : String),
      (validateLongUrl pp req.longUrl).isValid = true →
      req.customShortCode = some c → c ≠ "" →
      mapGet s.shortCodeToId c = some uid →
      (s.validateShortCode c).isValid = false ∧
      UrlService.createShortUrl pp origin now ds s req =
        some (⟨false, none, (s.validateShortCode c).error⟩, s)) := by
  constructor
  · intro pp1 pp2 o1 o2 n1 n2 ds1 ds2 s1 s2 req1 req2 r1 r2 t1 t2
      hn1 hn2 hne hc1 hs1 hc2 hs2 e1 e2 he1 he2
    obtain ⟨sc1, hfc1, -⟩ :=
      createShortUrl_success_shape pp1 o1 n1 ds1 s1 req1 r1 t1 hc1 hs1
    obtain ⟨sc2, hfc2, -⟩ :=
      createShortUrl_success_shape pp2 o2 n2 ds2 s2 req2 r2 t2 hc2 hs2
    have hr1 : (s1.finishCreate o1 n1 sc1 req1).1 = r1 := by rw [hfc1]
    have hr2 : (s2.finishCreate o2 n2 sc2 req2).1 = r2 := by rw [hfc2]
    rw [← hr1] at he1
    rw [← hr2] at he2
    have hE1 : e1 = createdEntry o1 n1 sc1 req1 := by
      simpa [UrlService.finishCreate, eq_comm] using he1
    have hE2 : e2 = createdEntry o2 n2 sc2 req2 := by
      simpa [UrlService.finishCreate, eq_comm] using he2
    rw [hE1, hE2]
    intro hid
    have hid' : toString n1 = toString n2 := hid
    apply hne
    have h1 : n1 = ((n1.toNat : Nat) : Int) := (Int.toNat_of_nonneg hn1).symm
    have h2 : n2 = ((n2.toNat : Nat) : Int) := (Int.toNat_of_nonneg hn2).symm
    rw [h1, h2]
    exact congrArg _ (toString_int_nonneg_inj n1.toNat n2.toNat
      (by rw [← h1, ← h2]; exact hid'))
  · intro pp origin now ds s req c uid hurl hcust hcne hidx
    have hval : (s.validateShortCode c).isValid = false := by
      unfold UrlService.validateShortCode
      split
      · rfl
      · split
        · rfl
        · rw [if_pos (by rw [hidx]; rfl)]
    refine ⟨hval, ?_⟩
    simp [UrlService.createShortUrl, hurl, hcust, hcne, hval]

/-- Witness for C6 (amended): creations at clock readings 5000 and 6000
get distinct ids, and recreating the sample state's code
`"abc12345"` is rejected as taken without touching the state. -/
theorem claim_C6_witness :
    (∃ r1 t1 r2 t2 e1 e2,
      UrlService.createShortUrl (fun _ => some "https:") "o" 5000 []
        (⟨[], [], 0⟩ : UrlService)
        { longUrl := "https://u.example"
          customShortCode := some "aaa" } = some (r1, t1) ∧
      UrlService.createShortUrl (fun _ => some "https:") "o" 6000 []
        (⟨[], [], 0⟩ : UrlService)
        { longUrl := "https://u.example"
          customShortCode := some "bbb" } = some (r2, t2) ∧
      r1.urlEntry = some e1 ∧ r2.urlEntry = some e2 ∧
      e1.id ≠ e2.id) ∧
    UrlService.createShortUrl (fun _ => some "https:") "o" 90000 []
      sampleService
      { longUrl := "https://u.example"
        customShortCode := some "abc12345" } =
      some (⟨false, none, some "Shortcode already exists"⟩,
        sampleService) := by
  constructor
  · refine ⟨_, _, _, _, _, _, rfl, rfl, rfl, rfl, ?_⟩
    exact (claim_C6).1 (fun _ => some "https:") (fun _ => some "https:")
      "o" "o" 5000 6000 [] [] ⟨[], [], 0⟩ ⟨[], [], 0⟩
      { longUrl := "https://u.example", customShortCode := some "aaa" }
      { longUrl := "https://u.example", customShortCode := some "bbb" }
      _ _ _ _ (by decide) (by decide) (by decide) rfl rfl rfl rfl _ _
      rfl rfl
  · have h := (claim_C6).2 (fun _ => some "https:") "o" 90000 []
      sampleService
      { longUrl := "https://u.example"
        customShortCode := some "abc12345" }
      "abc12345" "1000" (by decide) rfl (by decide) (by decide)
    rw [h.2]
    rfl

/-- Every alphabet index yields an alphanumeric character. -/
theorem alphanum_of_fin62 :
    ∀ d : Fin 62, alphanumChar (charsList.getD d.val 'A') = true := by
  decide

/-- Any code the generator returns has length 8, is alphanumeric, and is
absent from the code index. -/
theorem generateShortCode_spec (s : UrlService) :
    ∀ (ds : List (Fin 8 → Fin 62)) (c : String),
      s.generateShortCode ds = some c →
      c.length = 8 ∧ c.toList.all alphanumChar = true ∧
      mapGet s.shortCodeToId c = none := by
  intro ds
  induction ds with
  | nil => intro c h; exact Option.noConfusion h
  | cons d rest ih =>
    intro c h
    cases hs : (mapGet s.shortCodeToId (drawCode d)).isSome with
    | true =>
      simp only [UrlService.generateShortCode, hs, if_true] at h
      exact ih c h
    | false =>
      simp only [UrlService.generateShortCode, hs, Bool.false_eq_true,
        if_false, Option.some.injEq] at h
      rw [← h]
      refine ⟨?_, ?_, ?_⟩
      · show ((List.finRange 8).map
          (fun i => charsList.getD (d i).val 'A')).length = 8
        simp
      · show ((List.finRange 8).map
          (fun i => charsList.getD (d i).val 'A')).all alphanumChar = true
        rw [List.all_eq_true]
        intro x hx
        rcases List.mem_map.mp hx with ⟨i, _, hix⟩
        rw [← hix]
        exact alphanum_of_fin62 (d i)
      · cases hmg : mapGet s.shortCodeToId (drawCode d) with
        | none => rfl
        | some v => rw [hmg] at hs; simp at hs

/-- C7: a creation with a valid long URL and no custom code takes the
generated code — whenever the random loop terminates, the call succeeds
and the entry's code has length 8, is drawn from the 62-character
alphanumeric alphabet, and equals no code in the current index. -/
theorem claim_C7 :
    (∀ (s : UrlService) (ds : List (Fin 8 → Fin 62)) (c : String),
      s.generateShortCode ds = some c →
      c.length = 8 ∧ c.toList.all alphanumChar = true ∧
      mapGet s.shortCodeToId c = none) ∧
    (∀ (pp : String → Option String) (origin : String) (now : Int)
        (ds : List (Fin 8 → Fin 62)) (s : UrlService)
        (req : CreateUrlRequest) (c : String),
      (validateLongUrl pp req.longUrl).isValid = true →
      req.customShortCode = none →
      s.generateShortCode ds = some c →
      ∃ r s1 e,
        UrlService.createShortUrl pp origin now ds s req =
          some (r, s1) ∧
        r.success = true ∧ r.urlEntry = some e ∧ e.shortCode = c ∧
        c.length = 8 ∧ c.toList.all alphanumChar = true ∧
        mapGet s.shortCodeToId c = none) := by
  constructor
  · exact generateShortCode_spec
  · intro pp origin now ds s req c hurl hcust hgen
    have hcreate : UrlService.createShortUrl pp origin now ds s req =
        some (s.finishCreate origin now c req) := by
      simp [UrlService.createShortUrl, hurl, hcust, hgen]
    obtain ⟨h8, hab, hfree⟩ := generateShortCode_spec s ds c hgen
    exact ⟨(s.finishCreate origin now c req).1,
      (s.finishCreate origin now c req).2,
      createdEntry origin now c req, by rw [hcreate], rfl, rfl, rfl,
      h8, hab, hfree⟩

/-- Witness for C7: with the oracle drawing index 0 eight times on the
empty store, creation without a custom code succeeds with the code
`"AAAAAAAA"`. -/
theorem claim_C7_witness :
    ∃ r s1 e,
      UrlService.createShortUrl (fun _ => some "https:") "o" 1000
        [fun _ => (0 : Fin 62)] (⟨[], [], 0⟩ : UrlService)
        { longUrl := "https://u.example" } = some (r, s1) ∧
      r.success = true ∧ r.urlEntry = some e ∧
      e.shortCode = "AAAAAAAA" ∧ "AAAAAAAA".length = 8 ∧
      "AAAAAAAA".toList.all alphanumChar = true ∧
      mapGet (⟨[], [], 0⟩ : UrlService).shortCodeToId "AAAAAAAA" =
        none := by
  have hgen : (⟨[], [], 0⟩ : UrlService).generateShortCode
      [fun _ => (0 : Fin 62)] = some "AAAAAAAA" := by decide
  obtain ⟨r, s1, e, h1, h2, h3, h4, h5, h6, h7⟩ :=
    (claim_C7).2 (fun _ => some "https:") "o" 1000
      [fun _ => (0 : Fin 62)] ⟨[], [], 0⟩
      { longUrl := "https://u.example" } "AAAAAAAA" (by decide) rfl hgen
  exact ⟨r, s1, e, h1, h2, h3, h4, h5, h6, h7⟩

/-! ### Round-trip persistence -/

theorem loadUrlFold_not_mem (us : List UrlEntry) :
    ∀ (st : UrlService) (k : String), (∀ u ∈ us, u.id ≠ k) →
      mapGet (us.foldl loadUrlStep st).urlEntries k =
        mapGet st.urlEntries k := by
  induction us with
  | nil => intro st k _; rfl
  | cons u rest ih =>
    intro st k h
    rw [List.foldl_cons, ih _ k (fun v hv => h v (List.mem_cons_of_mem u hv))]
    simp [loadUrlStep, mapGet_set, Ne.symm (h u (List.mem_cons_self u rest))]

theorem loadUrlFold_get (us : List UrlEntry) :
    ∀ (st : UrlService) (e : UrlEntry), e ∈ us →
      (us.map UrlEntry.id).Nodup →
      mapGet (us.foldl loadUrlStep st).urlEntries e.id = some e := by
  induction us with
  | nil => intro st e h _; cases h
  | cons u rest ih =>
    intro st e hmem hnd
    rw [List.foldl_cons]
    rcases List.mem_cons.mp hmem with h | h
    · subst h
      have hno : ∀ v ∈ rest, v.id ≠ e.id := by
        intro v hv hvk
        exact (List.nodup_cons.mp hnd).1
          (hvk ▸ List.mem_map_of_mem UrlEntry.id hv)
      rw [loadUrlFold_not_mem rest _ e.id hno]
      simp [loadUrlStep, mapGet_set]
    · exact ih _ e h (List.nodup_cons.mp hnd).2

theorem loadMappingFold_entries (ms : List (String × String)) :
    ∀ st : UrlService,
      (ms.foldl loadMappingStep st).urlEntries = st.urlEntries := by
  induction ms with
  | nil => intro st; rfl
  | cons m rest ih =>
    intro st
    rw [List.foldl_cons, ih]
    rfl

/-- C8: saving and reloading (a simulated restart) reproduces every
stored entry verbatim — in particular with the same id, short code and
click count — under its own id. -/
theorem claim_C8 (s : UrlService)
    (hnd : (s.urlEntries.map (fun p => p.2.id)).Nodup) :
    ∀ p ∈ s.urlEntries,
      mapGet (loadFromStorage s.savedRecords.1
        s.savedRecords.2).urlEntries p.2.id = some p.2 := by
  intro p hp
  unfold loadFromStorage
  rw [loadMappingFold_entries]
  apply loadUrlFold_get
  · exact List.mem_map_of_mem Prod.snd hp
  · show (List.map UrlEntry.id (s.urlEntries.map Prod.snd)).Nodup
    rw [List.map_map]
    exact hnd

/-- Witness for C8 at the sample state: the reloaded store holds the
sample entry unchanged under its id. -/
theorem claim_C8_witness :
    mapGet (loadFromStorage sampleService.savedRecords.1
      sampleService.savedRecords.2).urlEntries "1000" =
      some sampleEntry :=
  claim_C8 sampleService (by decide) ("1000", sampleEntry) (by decide)

/-- C9: deleting an absent id returns `false` with the state (both maps
and the save counter) fully unchanged; deleting a present id removes
both of the entry's mappings, persists, and returns `true`. -/
theorem claim_C9 (s : UrlService) (id : String) :
    (mapGet s.urlEntries id = none → s.deleteUrl id = (false, s)) ∧
    (∀ e, mapGet s.urlEntries id = some e →
      s.deleteUrl id = (true, UrlService.saveToStorage
        { s with
          urlEntries := mapDelete s.urlEntries id
          shortCodeToId := mapDelete s.shortCodeToId e.shortCode }) ∧
      mapGet (s.deleteUrl id).2.urlEntries id = none ∧
      mapGet (s.deleteUrl id).2.shortCodeToId e.shortCode = none) := by
  constructor
  · intro h
    simp [UrlService.deleteUrl, h]
  · intro e h
    have heq : s.deleteUrl id = (true, UrlService.saveToStorage
        { s with
          urlEntries := mapDelete s.urlEntries id
          shortCodeToId := mapDelete s.shortCodeToId e.shortCode }) := by
      simp [UrlService.deleteUrl, h]
    refine ⟨heq, ?_, ?_⟩
    · rw [heq]
      simp [UrlService.saveToStorage, mapGet_delete]
    · rw [heq]
      simp [UrlService.saveToStorage, mapGet_delete]

/-- Witness for C9: deleting the unknown id `"nope"` is a no-op with
`false`; deleting `"1000"` removes both mappings and returns `true`. -/
theorem claim_C9_witness :
    UrlService.deleteUrl sampleService "nope" = (false, sampleService) ∧
    (UrlService.deleteUrl sampleService "1000").1 = true ∧
    mapGet (UrlService.deleteUrl sampleService
      "1000").2.urlEntries "1000" = none ∧
    mapGet (UrlService.deleteUrl sampleService
      "1000").2.shortCodeToId "abc12345" = none := by
  have h1 := (claim_C9 sampleService "nope").1 (by decide)
  have h2 := (claim_C9 sampleService "1000").2 sampleEntry (by decide)
  exact ⟨h1, by rw [h2.1], h2.2.1, h2.2.2⟩

/-- C10: a failed `incrementClicks` on an expired but still indexed code
does mutate state — it flips that entry's `isValid`, persists once, and
leaves `clicks`, all other entries, and the code index unchanged —
while a failed call on an unindexed code changes nothing and writes
nothing. -/
theorem claim_C10 (s : UrlService) (now : Int) (code : String) :
    (∀ uid e, mapGet s.shortCodeToId code = some uid →
      mapGet s.urlEntries uid = some e → e.id = uid →
      e.expiresAt < now →
      s.incrementClicks now code = (false, UrlService.saveToStorage
        { s with
          urlEntries :=
            mapSet s.urlEntries uid ({ e with isValid := false }) }) ∧
      mapGet (s.incrementClicks now code).2.urlEntries uid =
        some { e with isValid := false } ∧
      (s.incrementClicks now code).2.saves = s.saves + 1 ∧
      (s.incrementClicks now code).2.shortCodeToId = s.shortCodeToId ∧
      (∀ k, k ≠ uid →
        mapGet (s.incrementClicks now code).2.urlEntries k =
          mapGet s.urlEntries k)) ∧
    (mapGet s.shortCodeToId code = none →
      s.incrementClicks now code = (false, s)) := by
  constructor
  · intro uid e hidx hent hid hexp
    have heq : s.incrementClicks now code =
        (false, UrlService.saveToStorage
          { s with
            urlEntries :=
              mapSet s.urlEntries uid ({ e with isValid := false }) }) := by
      simp [UrlService.incrementClicks, UrlService.getUrlByShortCode,
        hidx, hent, hexp, hid]
    refine ⟨heq, ?_, ?_, ?_, ?_⟩
    · rw [heq]
      simp [UrlService.saveToStorage, mapGet_set]
    · rw [heq]
      rfl
    · rw [heq]
      rfl
    · intro k hk
      rw [heq]
      simp [UrlService.saveToStorage, mapGet_set, hk]
  · intro hidx
    simp [UrlService.incrementClicks, UrlService.getUrlByShortCode, hidx]

/-- Witness for C10: at `now = 70000` the sample code is expired —
`incrementClicks` fails, invalidates the entry, and bumps the save
counter; the unknown code `"missing"` fails with no state change. -/
theorem claim_C10_witness :
    (UrlService.incrementClicks sampleService 70000 "abc12345").1 =
      false ∧
    mapGet (UrlService.incrementClicks sampleService 70000
      "abc12345").2.urlEntries "1000" =
      some { sampleEntry with isValid := false } ∧
    (UrlService.incrementClicks sampleService 70000
      "abc12345").2.saves = 1 ∧
    UrlService.incrementClicks sampleService 70000 "missing" =
      (false, sampleService) := by
  have h := (claim_C10 sampleService 70000 "abc12345").1 "1000"
    sampleEntry (by decide) (by decide) (by decide) (by decide)
  have h2 := (claim_C10 sampleService 70000 "missing").2 (by decide)
  exact ⟨by rw [h.1], h.2.1, h.2.2.1, h2⟩
